import Mathlib

/-!
# gke-config-helper: a shallow embedding of `main.go`

The program resolves a folder subtree to its projects (`getDescendantProjects`),
lists the clusters of those projects (`getGKEClusters`) and builds a kubeconfig
document (`main`).  The embedding keeps the source's names.

Conventions of the embedding:

* a Go `string` is a `String`; the zero value of a string is `""`;
* a Go `map[string]V` is an association list with pairwise distinct keys
  (`FolderMap`); a read of an absent key yields the zero value of `V`;
* an API iterator is the list of items it yields before it ends, together with
  the error (if any) that ends it (`Iter`);
* the unbounded `for` loop of the parent-chain walk takes a fuel argument; `none`
  stands for a walk that has not stopped within the fuel;
* a Go run-time panic (index out of range, nil dereference) is `none` in
  `getGKEClusters`;
* the construction of the API clients (`NewFoldersClient`, `NewProjectsClient`,
  `NewClusterManagerClient`) and the YAML encoder are outside the embedding.
-/

namespace GkeConfigHelper

/-! ## Data model -/

/-- The fields of `resourcemanagerpb.Folder` read by the program. -/
structure Folder where
  Name : String
  DisplayName : String
  Parent : String
deriving DecidableEq

/-- The anonymous struct stored in the `folders` map (lines 134-137). -/
structure FolderEntry where
  DisplayName : String
  Parent : String
deriving DecidableEq

/-- The Go map `folders`: keys are folder names. -/
abbrev FolderMap := List (String × FolderEntry)

/-- The protobuf enum `resourcemanagerpb.Project_State` is an `int32`. -/
abbrev Project_State := Int

/-- The constant `resourcemanagerpb.Project_ACTIVE`. -/
def Project_ACTIVE : Project_State := 1

/-- The constant `resourcemanagerpb.Project_DELETE_REQUESTED`. -/
def Project_DELETE_REQUESTED : Project_State := 2

/-- The fields of `resourcemanagerpb.Project` read by the program. -/
structure Project where
  Name : String
  Parent : String
  State : Project_State
deriving DecidableEq

/-- An API iterator: the items `Next` yields, then `iterator.Done` when `err` is
`none`, or the error `e` when `err` is `some e`. -/
structure Iter (α : Type) where
  items : List α
  err : Option String

/-! ## Go map operations -/

/-- The zero value of the map's value type. -/
def zeroEntry : FolderEntry := ⟨"", ""⟩

/-- The statement `delete(m, k)`. -/
def mapDelete (m : FolderMap) (k : String) : FolderMap :=
  m.filter (fun kv => decide (kv.1 ≠ k))

/-- The statement `m[k] = v`: the binding of `k` is replaced or added. -/
def mapSet (m : FolderMap) (k : String) (v : FolderEntry) : FolderMap :=
  mapDelete m k ++ [(k, v)]

/-- The two-valued read `v, ok := m[k]`. -/
def mapLookup : FolderMap → String → Option FolderEntry
  | [], _ => none
  | (k', v) :: rest, k => if k' = k then some v else mapLookup rest k

/-- The read `m[k]`: the zero value when `k` is absent. -/
def mapGet (m : FolderMap) (k : String) : FolderEntry :=
  (mapLookup m k).getD zeroEntry

/-- The `ok` of `_, ok := m[k]`. -/
def mapHas (m : FolderMap) (k : String) : Bool :=
  (mapLookup m k).isSome

/-- The keys visited by `for f := range m` (Go fixes no order; the list order is
one admissible order). -/
def mapKeys (m : FolderMap) : List String :=
  m.map Prod.fst

/-! ## getDescendantProjects, lines 138-157: folder fetch loop -/

/-- One iteration of the fetch loop on a folder `f` (lines 147-156): the state is
the map `folders` and the variable `root`. -/
def fetchStep (folder : String) (st : FolderMap × String) (f : Folder) :
    FolderMap × String :=
  let folders := mapSet st.1 f.Name ⟨f.DisplayName, f.Parent⟩
  let root := if f.DisplayName = folder then f.Name else st.2
  (folders, root)

/-- The fetch loop over the items of the iterator, from the empty map and
`var root string` (the zero value `""`). -/
def fetchFolders (folder : String) (fs : List Folder) : FolderMap × String :=
  fs.foldl (fetchStep folder) ([], "")

/-! ## getDescendantProjects, lines 159-182: pruning -/

/-- The inner `for` loop (lines 167-177) started at `cur`.  `some false`: left by
the `break` of "Found root"; `some true`: left by the `break` after
`prune = append(prune, f)`; `none`: still running after `fuel` iterations. -/
def walk (folders : FolderMap) (root : String) : Nat → String → Option Bool
  | 0, _ => none
  | fuel + 1, cur =>
    if cur = root then some false
    else if cur = (mapGet folders cur).Parent then some true
    else walk folders root fuel (mapGet folders cur).Parent

/-- The loop `for f := range folders` (lines 162-178) over the keys `ks`,
appending to `prune`. -/
def pruneLoop (folders : FolderMap) (root : String) (fuel : Nat) :
    List String → List String → Option (List String)
  | [], prune => some prune
  | f :: ks, prune =>
    if f = root then pruneLoop folders root fuel ks prune
    else
      match walk folders root fuel f with
      | none => none
      | some true => pruneLoop folders root fuel ks (prune ++ [f])
      | some false => pruneLoop folders root fuel ks prune

/-- The loop `for _, f := range prune { delete(folders, f) }` (lines 179-181). -/
def deleteAll (folders : FolderMap) (prune : List String) : FolderMap :=
  prune.foldl mapDelete folders

/-- The block of lines 159-182: the folder map after the pruning stage. -/
def pruneFolders (fuel : Nat) (folder : String) (folders : FolderMap)
    (root : String) : Option FolderMap :=
  if folder ≠ "" then
    match pruneLoop folders root fuel (mapKeys folders) [] with
    | none => none
    | some prune => some (deleteAll folders prune)
  else some folders

/-! ## getDescendantProjects, lines 190-211: project filter -/

/-- One iteration of the project loop on a project `p` (lines 200-209). -/
def projectStep (folders : FolderMap) (projectIds : List String) (p : Project) :
    List String :=
  if p.State = Project_DELETE_REQUESTED then projectIds
  else if ¬ (mapHas folders p.Parent = true) then projectIds
  else projectIds ++ [p.Name]

/-- The project loop over the items of the iterator, from the empty slice. -/
def filterProjects (folders : FolderMap) (ps : List Project) : List String :=
  ps.foldl (projectStep folders) []

/-- The function `getDescendantProjects` (lines 126-212) on the folder iterator
`fi`, the project iterator `pi` and the search root `folder`.  `none`: a
parent-chain walk did not stop within `fuel`; `some (.error e)`: `return nil, err`;
`some (.ok ids)`: `return projectIds, nil`. -/
def getDescendantProjects (fuel : Nat) (fi : Iter Folder) (pi : Iter Project)
    (folder : String) : Option (Except String (List String)) :=
  match fi.err with
  | some e => some (.error e)
  | none =>
    let st := fetchFolders folder fi.items
    match pruneFolders fuel folder st.1 st.2 with
    | none => none
    | some folders =>
      match pi.err with
      | some e => some (.error e)
      | none => some (.ok (filterProjects folders pi.items))

/-! ## getGKEClusters, lines 214-249 -/

/-- The struct `clusterInfo` (lines 214-220). -/
structure clusterInfo where
  ProjectId : String
  Location : String
  Name : String
  CAData : String
  Endpoint : String
deriving DecidableEq

/-- The field of `containerpb.MasterAuth` read by the program. -/
structure MasterAuth where
  ClusterCaCertificate : String
deriving DecidableEq

/-- The fields of `containerpb.Cluster` read by the program; `MasterAuth` is a
pointer, `none` is nil. -/
structure Cluster where
  SelfLink : String
  Location : String
  Name : String
  MasterAuth : Option MasterAuth
  Endpoint : String
deriving DecidableEq

/-- Splitting a character sequence at every occurrence of `sep`: the pieces
between the separators, `n + 1` pieces for `n` separators. -/
def splitChars (sep : Char) : List Char → List (List Char)
  | [] => [[]]
  | c :: cs =>
    if c = sep then [] :: splitChars sep cs
    else
      match splitChars sep cs with
      | [] => [[c]]
      | piece :: pieces => (c :: piece) :: pieces

/-- The call `strings.Split(s, "/")`. -/
def Split (s : String) : List String :=
  (splitChars '/' s.data).map String.mk

/-- The struct literal of lines 238-244 for one cluster `c`: `none` when
the index expression `[5]` is out of range or `c.MasterAuth` is nil. -/
def clusterInfoOf (c : Cluster) : Option clusterInfo :=
  match (Split c.SelfLink)[5]? with
  | none => none
  | some projectId =>
    match c.MasterAuth with
    | none => none
    | some ma =>
      some
        { ProjectId := projectId
          Location := c.Location
          Name := c.Name
          CAData := ma.ClusterCaCertificate
          Endpoint := c.Endpoint }

/-- The inner loop `for _, c := range r.Clusters` (lines 237-245). -/
def appendClusters : List clusterInfo → List Cluster → Option (List clusterInfo)
  | data, [] => some data
  | data, c :: cs =>
    match clusterInfoOf c with
    | none => none
    | some ci => appendClusters (data ++ [ci]) cs

/-- The outer loop of `getGKEClusters` (lines 230-246); `ListClusters` is the
external list call, applied to the request's `Parent` string. -/
def clustersLoop (ListClusters : String → Except String (List Cluster)) :
    List clusterInfo → List String → Option (Except String (List clusterInfo))
  | data, [] => some (.ok data)
  | data, p :: ps =>
    match ListClusters (p ++ "/locations/-") with
    | .error e => some (.error e)
    | .ok r =>
      match appendClusters data r with
      | none => none
      | some data' => clustersLoop ListClusters data' ps

/-- The function `getGKEClusters` (lines 222-249). -/
def getGKEClusters (ListClusters : String → Except String (List Cluster))
    (projects : List String) : Option (Except String (List clusterInfo)) :=
  clustersLoop ListClusters [] projects

/-! ## main, lines 45-86: config synthesis -/

/-- The struct `clusterEndpoint` (lines 102-105). -/
structure clusterEndpoint where
  CAData : String
  Endpoint : String
deriving DecidableEq

/-- The struct `clusterConfigData` (lines 98-101). -/
structure clusterConfigData where
  Name : String
  Cluster : clusterEndpoint
deriving DecidableEq

/-- The struct `contextAssociation` (lines 110-113). -/
structure contextAssociation where
  Cluster : String
  User : String
deriving DecidableEq

/-- The struct `contextConfigData` (lines 106-109). -/
structure contextConfigData where
  Name : String
  Context : contextAssociation
deriving DecidableEq

/-- The struct `authProvider` (lines 121-124); the Go map `Config` is a list of
bindings. -/
structure authProvider where
  Name : String
  Config : List (String × String)
deriving DecidableEq

/-- The struct `userAuth` (lines 118-120). -/
structure userAuth where
  AuthProvider : authProvider
deriving DecidableEq

/-- The struct `userConfigData` (lines 114-117). -/
structure userConfigData where
  Name : String
  User : userAuth
deriving DecidableEq

/-- The struct `kubeConfig` (lines 93-97). -/
structure kubeConfig where
  Clusters : List clusterConfigData
  Contexts : List contextConfigData
  Users : List userConfigData
deriving DecidableEq

/-- The literal of lines 45-63. -/
def initialConfig : kubeConfig :=
  { Clusters := []
    Contexts := []
    Users :=
      [{ Name := "google-auth"
         User :=
           { AuthProvider :=
               { Name := "gcp"
                 Config :=
                   [("cmd-path", "gke-gcloud-auth-plugin"),
                    ("expiry-key", "\x7b.credential.token_expiry\x7d"),
                    ("token-key", "\x7b.credential.access_token\x7d")] } } }] }

/-- The body of the loop of lines 64-86 for one cluster `c`.  `tplExecute` is
the compiled template applied to `c` (`tpl.Execute(&buf, c)`): the rendered
string, or the error on which the program exits.  The index `cfg.Users[0]` is an
error when `Users` is empty. -/
def synthStep (tplExecute : clusterInfo → Except String String) (cfg : kubeConfig)
    (c : clusterInfo) : Except String kubeConfig :=
  let clusterName := c.ProjectId ++ "/" ++ c.Location ++ "/" ++ c.Name
  let clusters := cfg.Clusters ++
    [{ Name := clusterName
       Cluster := { CAData := c.CAData, Endpoint := "https://" ++ c.Endpoint } }]
  match tplExecute c with
  | .error e => .error e
  | .ok name =>
    match cfg.Users with
    | [] => .error "index out of range"
    | u :: _ =>
      .ok
        { cfg with
          Clusters := clusters
          Contexts := cfg.Contexts ++
            [{ Name := name, Context := { Cluster := clusterName, User := u.Name } }] }

/-- The loop of lines 64-86 from the configuration `cfg`. -/
def synthLoop (tplExecute : clusterInfo → Except String String) :
    kubeConfig → List clusterInfo → Except String kubeConfig
  | cfg, [] => .ok cfg
  | cfg, c :: cs =>
    match synthStep tplExecute cfg c with
    | .error e => .error e
    | .ok cfg' => synthLoop tplExecute cfg' cs

/-- The configuration `cfg` handed to the encoder (lines 45-90). -/
def buildConfig (tplExecute : clusterInfo → Except String String)
    (clusters : List clusterInfo) : Except String kubeConfig :=
  synthLoop tplExecute initialConfig clusters

/-! ## Parent chains

The walk reads the parent of the current identity as `folders[cur].Parent`.
-/

/-- The expression `folders[cur].Parent` (lines 171 and 176): the parent recorded
for `cur`, and `""` when `cur` is not a key of the map. -/
def parentOf (folders : FolderMap) (cur : String) : String :=
  (mapGet folders cur).Parent

/-- The value of `cur` after `n` executions of `cur = folders[cur].Parent`,
started at `f`. -/
def chain (folders : FolderMap) : Nat → String → String
  | 0, f => f
  | n + 1, f => chain folders n (parentOf folders f)

/-- A folder of the set that is recorded as its own parent (a self-referential
top of the hierarchy): `k` is a key of the map and its entry's `Parent` is `k`. -/
def selfParentFolder (folders : FolderMap) (k : String) : Bool :=
  match mapLookup folders k with
  | some e => decide (e.Parent = k)
  | none => false

/-- The name of the ClusterEntry and the ContextEntry of `c`
(`fmt.Sprintf("%s/%s/%s", c.ProjectId, c.Location, c.Name)`, line 65). -/
def clusterName (c : clusterInfo) : String :=
  c.ProjectId ++ "/" ++ c.Location ++ "/" ++ c.Name

/-- The cluster entry appended for `c` (lines 66-72). -/
def clusterEntryOf (c : clusterInfo) : clusterConfigData :=
  { Name := clusterName c
    Cluster := { CAData := c.CAData, Endpoint := "https://" ++ c.Endpoint } }

/-- The string left in `buf` by a successful `tpl.Execute(&buf, c)`. -/
def renderedName (tplExecute : clusterInfo → Except String String) (c : clusterInfo) :
    String :=
  match tplExecute c with
  | .ok name => name
  | .error _ => ""

/-- The context entry appended for `c` (lines 79-85) when the first user entry is
named `user`. -/
def contextEntryOf (tplExecute : clusterInfo → Except String String) (user : String)
    (c : clusterInfo) : contextConfigData :=
  { Name := renderedName tplExecute c
    Context := { Cluster := clusterName c, User := user } }

/-! ## Concrete inputs -/

/-- The scenario of the specification: `A` is its own parent, `B` is under `A`,
`C` is under `B`. -/
def scenarioFolders : List Folder :=
  [⟨"folders/A", "a", "folders/A"⟩, ⟨"folders/B", "b", "folders/A"⟩,
   ⟨"folders/C", "c", "folders/B"⟩]

/-- A hierarchy as the resource manager reports it: the top folder's parent is an
organization, which is not a folder. -/
def orgFolders : List Folder :=
  [⟨"folders/A", "a", "organizations/9"⟩, ⟨"folders/B", "b", "folders/A"⟩]

/-- Two folders with the same display name. -/
def twinFolders : List Folder :=
  [⟨"folders/1", "team", "organizations/9"⟩, ⟨"folders/2", "team", "organizations/9"⟩]

/-- An active project in folder `folders/B`. -/
def projectInB : Project := ⟨"projects/p1", "folders/B", Project_ACTIVE⟩

/-- An active project directly under the organization. -/
def projectInOrg : Project := ⟨"projects/p2", "organizations/9", Project_ACTIVE⟩

/-- A cluster record with a well-formed self link. -/
def sampleCluster : Cluster :=
  { SelfLink := "https://container.googleapis.com/v1/projects/proj1/locations/europe-west1/clusters/west-cluster"
    Location := "europe-west1"
    Name := "west-cluster"
    MasterAuth := some ⟨"Q0FEQVRB"⟩
    Endpoint := "10.0.0.1" }

/-- The ClusterInfo of `sampleCluster`. -/
def sampleInfo : clusterInfo :=
  ⟨"proj1", "europe-west1", "west-cluster", "Q0FEQVRB", "10.0.0.1"⟩

/-- A rendering of the default template `{{ .ProjectId }}-{{ .Name }}`, which
never fails. -/
def defaultTemplate (c : clusterInfo) : Except String String :=
  .ok (c.ProjectId ++ "-" ++ c.Name)

/-! ## Lemmas on the map operations -/

theorem mapHas_iff_mem_keys (m : FolderMap) (k : String) :
    mapHas m k = true ↔ k ∈ mapKeys m := by
  induction m with
  | nil => simp [mapHas, mapLookup, mapKeys]
  | cons kv rest ih =>
    obtain ⟨k', v⟩ := kv
    by_cases hk : k' = k
    · simp [mapHas, mapLookup, mapKeys, hk]
    · have ih' : (mapLookup rest k).isSome = true ↔ k ∈ List.map Prod.fst rest := ih
      have hk' : ¬ k = k' := fun h => hk h.symm
      simp [mapHas, mapLookup, mapKeys, hk, hk', ih']

theorem mem_keys_mapDelete (m : FolderMap) (k k' : String) :
    k' ∈ mapKeys (mapDelete m k) ↔ k' ∈ mapKeys m ∧ k' ≠ k := by
  simp only [mapKeys, mapDelete, List.mem_map, List.mem_filter, decide_eq_true_eq]
  constructor
  · rintro ⟨kv, ⟨hmem, hne⟩, rfl⟩
    exact ⟨⟨kv, hmem, rfl⟩, hne⟩
  · rintro ⟨⟨kv, hmem, rfl⟩, hne⟩
    exact ⟨kv, ⟨hmem, hne⟩, rfl⟩

theorem mem_keys_mapSet (m : FolderMap) (k k' : String) (v : FolderEntry) :
    k' ∈ mapKeys (mapSet m k v) ↔ k' ∈ mapKeys m ∨ k' = k := by
  have h := mem_keys_mapDelete m k k'
  simp only [mapKeys] at h
  simp only [mapSet, mapKeys, List.map_append, List.mem_append, h, List.map_cons,
    List.map_nil, List.mem_singleton]
  by_cases hk : k' = k <;> simp [hk]

theorem mem_keys_deleteAll (prune : List String) (m : FolderMap) (k : String) :
    k ∈ mapKeys (deleteAll m prune) ↔ k ∈ mapKeys m ∧ k ∉ prune := by
  induction prune generalizing m with
  | nil => simp [deleteAll]
  | cons f rest ih =>
    have h := ih (mapDelete m f)
    simp only [deleteAll, List.foldl_cons] at h ⊢
    rw [h, mem_keys_mapDelete]
    simp only [List.mem_cons, not_or]
    tauto

/-! ## Lemmas on the fetch loop -/

theorem fetchFolders_append (folder : String) (xs ys : List Folder) :
    fetchFolders folder (xs ++ ys) =
      ys.foldl (fetchStep folder) (fetchFolders folder xs) := by
  simp [fetchFolders, List.foldl_append]

theorem foldl_fetchStep_keys (folder : String) (fs : List Folder)
    (st : FolderMap × String) (k : String) :
    k ∈ mapKeys (fs.foldl (fetchStep folder) st).1 ↔
      k ∈ mapKeys st.1 ∨ k ∈ fs.map Folder.Name := by
  induction fs generalizing st with
  | nil => simp
  | cons f rest ih =>
    rw [List.foldl_cons, ih]
    simp only [fetchStep, mem_keys_mapSet, List.map_cons, List.mem_cons]
    tauto

theorem fetchFolders_keys (folder : String) (fs : List Folder) (k : String) :
    k ∈ mapKeys (fetchFolders folder fs).1 ↔ k ∈ fs.map Folder.Name := by
  have h := foldl_fetchStep_keys folder fs ([], "") k
  simpa [fetchFolders, mapKeys] using h

theorem foldl_fetchStep_root_of_no_match (folder : String) (fs : List Folder)
    (st : FolderMap × String) (h : ∀ g ∈ fs, g.DisplayName ≠ folder) :
    (fs.foldl (fetchStep folder) st).2 = st.2 := by
  induction fs generalizing st with
  | nil => rfl
  | cons f rest ih =>
    rw [List.foldl_cons, ih _ (fun g hg => h g (List.mem_cons_of_mem _ hg))]
    have hf : f.DisplayName ≠ folder := h f (List.mem_cons_self _ _)
    simp [fetchStep, hf]

theorem fetchFolders_root_last (folder : String) (pre post : List Folder) (f : Folder)
    (hf : f.DisplayName = folder) (hpost : ∀ g ∈ post, g.DisplayName ≠ folder) :
    (fetchFolders folder (pre ++ f :: post)).2 = f.Name := by
  rw [fetchFolders_append, List.foldl_cons, foldl_fetchStep_root_of_no_match _ _ _ hpost]
  simp [fetchStep, hf]

theorem exists_last_match (folder : String) (fs : List Folder)
    (h : ∃ f ∈ fs, f.DisplayName = folder) :
    ∃ pre f post, fs = pre ++ f :: post ∧ f.DisplayName = folder ∧
      ∀ g ∈ post, g.DisplayName ≠ folder := by
  induction fs with
  | nil => simp at h
  | cons a rest ih =>
    by_cases hr : ∃ f ∈ rest, f.DisplayName = folder
    · obtain ⟨pre, f, post, heq, hf, hpost⟩ := ih hr
      exact ⟨a :: pre, f, post, by simp [heq], hf, hpost⟩
    · have ha : a.DisplayName = folder := by
        obtain ⟨f, hmem, hf⟩ := h
        rcases List.mem_cons.mp hmem with rfl | hmem
        · exact hf
        · exact absurd ⟨f, hmem, hf⟩ hr
      refine ⟨[], a, rest, rfl, ha, ?_⟩
      intro g hg hgd
      exact hr ⟨g, hg, hgd⟩

theorem fetchFolders_root_mem (folder : String) (fs : List Folder)
    (h : ∃ f ∈ fs, f.DisplayName = folder) :
    (fetchFolders folder fs).2 ∈ mapKeys (fetchFolders folder fs).1 := by
  obtain ⟨pre, f, post, heq, hf, hpost⟩ := exists_last_match folder fs h
  rw [fetchFolders_keys]
  subst heq
  rw [fetchFolders_root_last folder pre post f hf hpost]
  simp

/-! ## Lemmas on the parent-chain walk -/

theorem walk_found (folders : FolderMap) (root : String) (fuel : Nat) (f : String)
    (h : walk folders root fuel f = some false) :
    ∃ n, n < fuel ∧ chain folders n f = root := by
  induction fuel generalizing f with
  | zero => simp [walk] at h
  | succ fuel ih =>
    unfold walk at h
    by_cases h1 : f = root
    · exact ⟨0, Nat.succ_pos _, h1⟩
    · by_cases h2 : f = (mapGet folders f).Parent
      · rw [if_neg h1, if_pos h2] at h
        simp at h
      · rw [if_neg h1, if_neg h2] at h
        obtain ⟨n, hn, hc⟩ := ih _ h
        exact ⟨n + 1, Nat.succ_lt_succ hn, hc⟩

theorem walk_top (folders : FolderMap) (root : String) (fuel : Nat) (f : String)
    (h : walk folders root fuel f = some true) :
    ∃ n, n < fuel ∧ chain folders n f = parentOf folders (chain folders n f) ∧
      ∀ j, j ≤ n → chain folders j f ≠ root := by
  induction fuel generalizing f with
  | zero => simp [walk] at h
  | succ fuel ih =>
    unfold walk at h
    by_cases h1 : f = root
    · rw [if_pos h1] at h
      simp at h
    · by_cases h2 : f = (mapGet folders f).Parent
      · refine ⟨0, Nat.succ_pos _, h2, ?_⟩
        intro j hj
        have hj0 : j = 0 := Nat.le_zero.mp hj
        subst hj0
        exact h1
      · rw [if_neg h1, if_neg h2] at h
        obtain ⟨n, hn, hc, hroot⟩ := ih _ h
        refine ⟨n + 1, Nat.succ_lt_succ hn, hc, ?_⟩
        intro j hj
        cases j with
        | zero => exact h1
        | succ j => exact hroot j (Nat.le_of_succ_le_succ hj)

theorem walk_stops_of_reach (folders : FolderMap) (root : String) (n : Nat) (f : String)
    (h : chain folders n f = root ∨
      chain folders n f = parentOf folders (chain folders n f))
    (fuel : Nat) (hfuel : n < fuel) :
    ∃ b, walk folders root fuel f = some b := by
  induction n generalizing f fuel with
  | zero =>
    obtain ⟨fuel, rfl⟩ : ∃ k, fuel = k + 1 := ⟨fuel - 1, by omega⟩
    unfold walk
    by_cases h1 : f = root
    · exact ⟨false, by rw [if_pos h1]⟩
    · have h2 : f = (mapGet folders f).Parent := by
        rcases h with h | h
        · exact absurd h h1
        · exact h
      exact ⟨true, by rw [if_neg h1, if_pos h2]⟩
  | succ n ih =>
    obtain ⟨fuel, rfl⟩ : ∃ k, fuel = k + 1 := ⟨fuel - 1, by omega⟩
    unfold walk
    by_cases h1 : f = root
    · exact ⟨false, by rw [if_pos h1]⟩
    · by_cases h2 : f = (mapGet folders f).Parent
      · exact ⟨true, by rw [if_neg h1, if_pos h2]⟩
      · rw [if_neg h1, if_neg h2]
        exact ih _ h fuel (by omega)

theorem walk_stop_condition (folders : FolderMap) (root : String) (fuel : Nat)
    (f : String) (b : Bool) (h : walk folders root fuel f = some b) :
    ∃ j, j < fuel ∧
      (∀ i, i < j → chain folders i f ≠ root ∧
        chain folders i f ≠ parentOf folders (chain folders i f)) ∧
      ((b = false ∧ chain folders j f = root) ∨
        (b = true ∧ chain folders j f ≠ root ∧
          chain folders j f = parentOf folders (chain folders j f))) := by
  induction fuel generalizing f with
  | zero => simp [walk] at h
  | succ fuel ih =>
    unfold walk at h
    by_cases h1 : f = root
    · rw [if_pos h1] at h
      refine ⟨0, Nat.succ_pos _, fun i hi => absurd hi (Nat.not_lt_zero i), Or.inl ⟨?_, h1⟩⟩
      exact (Option.some.inj h).symm
    · by_cases h2 : f = (mapGet folders f).Parent
      · rw [if_neg h1, if_pos h2] at h
        refine ⟨0, Nat.succ_pos _, fun i hi => absurd hi (Nat.not_lt_zero i),
          Or.inr ⟨?_, h1, h2⟩⟩
        exact (Option.some.inj h).symm
      · rw [if_neg h1, if_neg h2] at h
        obtain ⟨j, hj, hbefore, hat⟩ := ih _ h
        refine ⟨j + 1, Nat.succ_lt_succ hj, ?_, hat⟩
        intro i hi
        cases i with
        | zero => exact ⟨h1, h2⟩
        | succ i => exact hbefore i (Nat.lt_of_succ_lt_succ hi)

theorem walk_mono (folders : FolderMap) (root : String) (fuel fuel' : Nat) (f : String)
    (b : Bool) (h : walk folders root fuel f = some b) (hle : fuel ≤ fuel') :
    walk folders root fuel' f = some b := by
  induction fuel generalizing f fuel' with
  | zero => simp [walk] at h
  | succ fuel ih =>
    obtain ⟨fuel', rfl⟩ : ∃ k, fuel' = k + 1 := ⟨fuel' - 1, by omega⟩
    unfold walk at h ⊢
    by_cases h1 : f = root
    · rw [if_pos h1] at h ⊢
      exact h
    · by_cases h2 : f = (mapGet folders f).Parent
      · rw [if_neg h1, if_pos h2] at h ⊢
        exact h
      · rw [if_neg h1, if_neg h2] at h ⊢
        exact ih fuel' _ h (by omega)

/-! ## Lemmas on the pruning loop -/

theorem pruneLoop_spec (folders : FolderMap) (root : String) (fuel : Nat)
    (ks acc prune : List String)
    (h : pruneLoop folders root fuel ks acc = some prune) :
    ∀ k, k ∈ prune ↔
      k ∈ acc ∨ (k ∈ ks ∧ k ≠ root ∧ walk folders root fuel k = some true) := by
  induction ks generalizing acc with
  | nil =>
    intro k
    simp only [pruneLoop, Option.some.injEq] at h
    subst h
    simp
  | cons f rest ih =>
    intro k
    unfold pruneLoop at h
    by_cases h1 : f = root
    · rw [if_pos h1] at h
      rw [ih acc h k]
      constructor
      · rintro (hk | ⟨hk, hne, hw⟩)
        · exact Or.inl hk
        · exact Or.inr ⟨List.mem_cons_of_mem _ hk, hne, hw⟩
      · rintro (hk | ⟨hk, hne, hw⟩)
        · exact Or.inl hk
        · rcases List.mem_cons.mp hk with rfl | hk
          · exact absurd h1 hne
          · exact Or.inr ⟨hk, hne, hw⟩
    · rw [if_neg h1] at h
      cases hw : walk folders root fuel f with
      | none => rw [hw] at h; simp at h
      | some b =>
        rw [hw] at h
        cases b with
        | true =>
          rw [ih _ h k]
          simp only [List.mem_append, List.mem_cons, List.not_mem_nil, or_false]
          constructor
          · rintro ((hk | rfl) | ⟨hk, hne, hw'⟩)
            · exact Or.inl hk
            · exact Or.inr ⟨Or.inl rfl, h1, hw⟩
            · exact Or.inr ⟨Or.inr hk, hne, hw'⟩
          · rintro (hk | ⟨rfl | hk, hne, hw'⟩)
            · exact Or.inl (Or.inl hk)
            · exact Or.inl (Or.inr rfl)
            · exact Or.inr ⟨hk, hne, hw'⟩
        | false =>
          rw [ih _ h k]
          simp only [List.mem_cons]
          constructor
          · rintro (hk | ⟨hk, hne, hw'⟩)
            · exact Or.inl hk
            · exact Or.inr ⟨Or.inr hk, hne, hw'⟩
          · rintro (hk | ⟨rfl | hk, hne, hw'⟩)
            · exact Or.inl hk
            · rw [hw] at hw'
              simp at hw'
            · exact Or.inr ⟨hk, hne, hw'⟩

theorem pruneLoop_walks (folders : FolderMap) (root : String) (fuel : Nat)
    (ks acc prune : List String)
    (h : pruneLoop folders root fuel ks acc = some prune) :
    ∀ k, k ∈ ks → k ≠ root → ∃ b, walk folders root fuel k = some b := by
  induction ks generalizing acc with
  | nil => intro k hk; simp at hk
  | cons f rest ih =>
    intro k hk hne
    unfold pruneLoop at h
    by_cases h1 : f = root
    · rw [if_pos h1] at h
      rcases List.mem_cons.mp hk with rfl | hk
      · exact absurd h1 hne
      · exact ih acc h k hk hne
    · rw [if_neg h1] at h
      cases hw : walk folders root fuel f with
      | none => rw [hw] at h; simp at h
      | some b =>
        rw [hw] at h
        rcases List.mem_cons.mp hk with rfl | hk
        · exact ⟨b, hw⟩
        · cases b with
          | true => exact ih _ h k hk hne
          | false => exact ih _ h k hk hne

theorem pruneLoop_total (folders : FolderMap) (root : String) (fuel : Nat)
    (ks acc : List String)
    (h : ∀ k, k ∈ ks → k ≠ root → ∃ b, walk folders root fuel k = some b) :
    ∃ prune, pruneLoop folders root fuel ks acc = some prune := by
  induction ks generalizing acc with
  | nil => exact ⟨acc, rfl⟩
  | cons f rest ih =>
    have hrest : ∀ k, k ∈ rest → k ≠ root → ∃ b, walk folders root fuel k = some b :=
      fun k hk hne => h k (List.mem_cons_of_mem _ hk) hne
    unfold pruneLoop
    by_cases h1 : f = root
    · rw [if_pos h1]
      exact ih acc hrest
    · rw [if_neg h1]
      obtain ⟨b, hb⟩ := h f (List.mem_cons_self _ _) h1
      rw [hb]
      cases b with
      | true => exact ih _ hrest
      | false => exact ih _ hrest

theorem pruneLoop_mono (folders : FolderMap) (root : String) (fuel fuel' : Nat)
    (ks acc prune : List String) (hle : fuel ≤ fuel')
    (h : pruneLoop folders root fuel ks acc = some prune) :
    pruneLoop folders root fuel' ks acc = some prune := by
  induction ks generalizing acc with
  | nil => exact h
  | cons f rest ih =>
    unfold pruneLoop at h ⊢
    by_cases h1 : f = root
    · rw [if_pos h1] at h ⊢
      exact ih acc h
    · rw [if_neg h1] at h ⊢
      cases hw : walk folders root fuel f with
      | none => rw [hw] at h; simp at h
      | some b =>
        rw [hw] at h
        rw [walk_mono folders root fuel fuel' f b hw hle]
        cases b with
        | true => exact ih _ h
        | false => exact ih _ h

theorem walks_bounded (folders : FolderMap) (root : String) (ks : List String)
    (h : ∀ f, f ∈ ks → ∃ n, chain folders n f = root ∨
      chain folders n f = parentOf folders (chain folders n f)) :
    ∃ N, ∀ f, f ∈ ks → ∃ b, walk folders root N f = some b := by
  induction ks with
  | nil => exact ⟨0, fun f hf => absurd hf (List.not_mem_nil f)⟩
  | cons k rest ih =>
    obtain ⟨N, hN⟩ := ih (fun f hf => h f (List.mem_cons_of_mem _ hf))
    obtain ⟨n, hn⟩ := h k (List.mem_cons_self _ _)
    refine ⟨max N (n + 1), ?_⟩
    intro f hf
    rcases List.mem_cons.mp hf with rfl | hf
    · exact walk_stops_of_reach folders root n f hn _ (by omega)
    · obtain ⟨b, hb⟩ := hN f hf
      exact ⟨b, walk_mono folders root N _ f b hb (Nat.le_max_left _ _)⟩

theorem pruneFolders_of_root_given (fuel : Nat) (folder : String) (folders : FolderMap)
    (root : String) (pruned : FolderMap) (hne : folder ≠ "")
    (h : pruneFolders fuel folder folders root = some pruned) :
    ∃ prune, pruneLoop folders root fuel (mapKeys folders) [] = some prune ∧
      pruned = deleteAll folders prune := by
  unfold pruneFolders at h
  rw [if_pos hne] at h
  cases hl : pruneLoop folders root fuel (mapKeys folders) [] with
  | none => rw [hl] at h; simp at h
  | some prune =>
    rw [hl] at h
    exact ⟨prune, rfl, (Option.some.inj h).symm⟩

theorem pruneFolders_mem (fuel : Nat) (folder : String) (folders : FolderMap)
    (root : String) (pruned : FolderMap) (hne : folder ≠ "")
    (h : pruneFolders fuel folder folders root = some pruned) (k : String) :
    (mapHas pruned k = true ↔
      mapHas folders k = true ∧
        (k = root ∨ walk folders root fuel k = some false)) ∧
    (mapHas folders k = true → mapHas pruned k = false →
      k ≠ root ∧ walk folders root fuel k = some true) := by
  obtain ⟨prune, hl, rfl⟩ := pruneFolders_of_root_given fuel folder folders root pruned hne h
  have hspec := pruneLoop_spec folders root fuel _ _ _ hl k
  have hwalks := pruneLoop_walks folders root fuel _ _ _ hl k
  simp only [List.not_mem_nil, false_or] at hspec
  have hkeys := mem_keys_deleteAll prune folders k
  constructor
  · rw [mapHas_iff_mem_keys, mapHas_iff_mem_keys, hkeys, hspec]
    constructor
    · rintro ⟨hk, hnot⟩
      refine ⟨hk, ?_⟩
      by_cases hr : k = root
      · exact Or.inl hr
      · obtain ⟨b, hb⟩ := hwalks hk hr
        cases b with
        | true => exact absurd ⟨hk, hr, hb⟩ hnot
        | false => exact Or.inr hb
    · rintro ⟨hk, hor⟩
      refine ⟨hk, ?_⟩
      rintro ⟨_, hr, hw⟩
      rcases hor with hr' | hw'
      · exact hr hr'
      · rw [hw] at hw'
        simp at hw'
  · intro hk hnot
    have hk' : k ∈ mapKeys folders := (mapHas_iff_mem_keys _ _).mp hk
    have hnk : ¬ k ∈ mapKeys (deleteAll folders prune) := by
      intro hmem
      rw [(mapHas_iff_mem_keys _ _).mpr hmem] at hnot
      simp at hnot
    rw [hkeys] at hnk
    have hin : k ∈ prune := by
      by_contra hc
      exact hnk ⟨hk', hc⟩
    exact (hspec.mp hin).2

theorem self_top_cases (folders : FolderMap) (t : String)
    (h : t = parentOf folders t) :
    selfParentFolder folders t = true ∨ (t = "" ∧ mapHas folders t = false) := by
  unfold parentOf mapGet at h
  unfold selfParentFolder mapHas
  cases hl : mapLookup folders t with
  | none =>
    rw [hl] at h
    right
    exact ⟨h, rfl⟩
  | some e =>
    rw [hl] at h
    left
    simp only [Option.getD_some] at h
    simp [← h]

/-! ## Lemmas on the project filter -/

theorem foldl_projectStep (folders : FolderMap) (ps : List Project) (acc : List String) :
    ps.foldl (projectStep folders) acc =
      acc ++ (ps.filter (fun p =>
        decide (p.State ≠ Project_DELETE_REQUESTED ∧ mapHas folders p.Parent = true))).map
          Project.Name := by
  induction ps generalizing acc with
  | nil => simp
  | cons p rest ih =>
    rw [List.foldl_cons, ih]
    unfold projectStep
    by_cases h1 : p.State = Project_DELETE_REQUESTED
    · simp [h1]
    · by_cases h2 : mapHas folders p.Parent = true
      · simp [h1, h2]
      · simp [h1, h2]

theorem getDescendantProjects_ok (fuel : Nat) (fi : Iter Folder) (pi : Iter Project)
    (folder : String) (pruned : FolderMap) (hfi : fi.err = none) (hpi : pi.err = none)
    (hp : pruneFolders fuel folder (fetchFolders folder fi.items).1
      (fetchFolders folder fi.items).2 = some pruned) :
    getDescendantProjects fuel fi pi folder =
      some (.ok (filterProjects pruned pi.items)) := by
  unfold getDescendantProjects
  rw [hfi]
  simp only [hp, hpi]

/-! ## Claims on getDescendantProjects -/

/-- C1 (as stated, refuted): with the folders `A` (parent: an organization) and
`B` (parent `A`) and the search root matching `B`, pruning yields `{B}`; the
removed folder `A` has no folder on its parent chain that is its own parent. -/
theorem pruned_folder_without_self_parent_top :
    pruneFolders 10 "b" (fetchFolders "b" orgFolders).1 (fetchFolders "b" orgFolders).2 =
        some [("folders/B", ⟨"b", "folders/A"⟩)] ∧
      mapHas (fetchFolders "b" orgFolders).1 "folders/A" = true ∧
      ¬ ∃ n, selfParentFolder (fetchFolders "b" orgFolders).1
        (chain (fetchFolders "b" orgFolders).1 n "folders/A") = true := by
  refine ⟨by decide, by decide, ?_⟩
  have hm : (fetchFolders "b" orgFolders).1 =
      [("folders/A", ⟨"a", "organizations/9"⟩), ("folders/B", ⟨"b", "folders/A"⟩)] := by
    decide
  rw [hm]
  rintro ⟨n, hn⟩
  generalize chain [("folders/A", ⟨"a", "organizations/9"⟩),
    ("folders/B", ⟨"b", "folders/A"⟩)] n "folders/A" = k at hn
  unfold selfParentFolder mapLookup at hn
  by_cases hA : "folders/A" = k
  · subst hA
    revert hn
    decide
  · rw [if_neg hA] at hn
    unfold mapLookup at hn
    by_cases hB : "folders/B" = k
    · subst hB
      revert hn
      decide
    · rw [if_neg hB] at hn
      simp [mapLookup] at hn

/-- C1 (amended): for a non-empty search root matching some fetched folder, let
`R` be the root the fetch loop selects.  `R` is a folder of the set and is kept.
Every folder kept by a finished pruning has a parent chain (following
`folders[cur].Parent`, which is `""` for an identity outside the set) that
reaches `R` in finitely many hops.  Every folder removed has a parent chain
that, without passing through `R`, reaches either a folder that is its own
parent or the empty identity `""` outside the set. -/
theorem kept_reach_root_removed_reach_top (fs : List Folder) (folder : String)
    (fuel : Nat) (pruned : FolderMap) (hne : folder ≠ "")
    (hex : ∃ f ∈ fs, f.DisplayName = folder)
    (hp : pruneFolders fuel folder (fetchFolders folder fs).1 (fetchFolders folder fs).2 =
      some pruned) :
    mapHas (fetchFolders folder fs).1 (fetchFolders folder fs).2 = true ∧
    mapHas pruned (fetchFolders folder fs).2 = true ∧
    ∀ k, mapHas (fetchFolders folder fs).1 k = true →
      (mapHas pruned k = true →
        ∃ n, chain (fetchFolders folder fs).1 n k = (fetchFolders folder fs).2) ∧
      (mapHas pruned k = false →
        ∃ n,
          (selfParentFolder (fetchFolders folder fs).1
              (chain (fetchFolders folder fs).1 n k) = true ∨
            (chain (fetchFolders folder fs).1 n k = "" ∧
              mapHas (fetchFolders folder fs).1 (chain (fetchFolders folder fs).1 n k) =
                false)) ∧
          ∀ j, j ≤ n → chain (fetchFolders folder fs).1 j k ≠ (fetchFolders folder fs).2) := by
  have hroot : mapHas (fetchFolders folder fs).1 (fetchFolders folder fs).2 = true :=
    (mapHas_iff_mem_keys _ _).mpr (fetchFolders_root_mem folder fs hex)
  refine ⟨hroot, ?_, ?_⟩
  · exact ((pruneFolders_mem fuel folder _ _ pruned hne hp _).1).mpr ⟨hroot, Or.inl rfl⟩
  · intro k hk
    have hmem := pruneFolders_mem fuel folder _ _ pruned hne hp k
    constructor
    · intro hkept
      rcases (hmem.1.mp hkept).2 with hr | hw
      · exact ⟨0, hr⟩
      · obtain ⟨n, _, hn⟩ := walk_found _ _ _ _ hw
        exact ⟨n, hn⟩
    · intro hrem
      obtain ⟨n, _, htop, hnot⟩ := walk_top _ _ _ _ (hmem.2 hk hrem).2
      exact ⟨n, self_top_cases _ _ htop, hnot⟩

/-- C1 (amended), at the scenario `{A(parent=A), B(parent=A), C(parent=B)}` with
the root matching `B`: the pruned set is `{B, C}`, and the kept folder `C`
reaches `B`. -/
theorem kept_reach_root_removed_reach_top_scenario :
    (pruneFolders 10 "b" (fetchFolders "b" scenarioFolders).1
        (fetchFolders "b" scenarioFolders).2).map mapKeys =
        some ["folders/B", "folders/C"] ∧
      ∃ n, chain (fetchFolders "b" scenarioFolders).1 n "folders/C" =
        (fetchFolders "b" scenarioFolders).2 :=
  ⟨by decide,
    ((kept_reach_root_removed_reach_top scenarioFolders "b" 10
      [("folders/B", ⟨"b", "folders/A"⟩), ("folders/C", ⟨"c", "folders/B"⟩)]
      (by decide) ⟨⟨"folders/B", "b", "folders/A"⟩, by decide, rfl⟩
      (by decide)).2.2 "folders/C" (by decide)).1 (by decide)⟩

/-- C2: the project loop returns, in fetch order, the names of exactly the
projects whose state is not DELETE_REQUESTED and whose parent is a key of the
(pruned) folder map; a DELETE_REQUESTED project is never returned, a project
whose parent is not a key is never returned, every other state is eligible. -/
theorem project_filter_exact (folders : FolderMap) (ps : List Project) :
    filterProjects folders ps =
        (ps.filter (fun p =>
          decide (p.State ≠ Project_DELETE_REQUESTED ∧ mapHas folders p.Parent = true))).map
            Project.Name ∧
      ∀ name, name ∈ filterProjects folders ps ↔
        ∃ p, p ∈ ps ∧ p.Name = name ∧ p.State ≠ Project_DELETE_REQUESTED ∧
          p.Parent ∈ mapKeys folders := by
  have h := foldl_projectStep folders ps []
  simp only [List.nil_append] at h
  refine ⟨h, ?_⟩
  intro name
  unfold filterProjects
  rw [h]
  simp only [List.mem_map, List.mem_filter, decide_eq_true_eq, mapHas_iff_mem_keys]
  constructor
  · rintro ⟨p, ⟨hp, hs, hk⟩, hn⟩
    exact ⟨p, hp, hn, hs, hk⟩
  · rintro ⟨p, hp, hn, hs, hk⟩
    exact ⟨p, ⟨hp, hs, hk⟩, hn⟩

/-- C3 (as stated, refuted): with the empty search root, an ACTIVE project whose
parent is an organization (not a fetched folder) is not returned. -/
theorem empty_root_drops_project_outside_folders :
    getDescendantProjects 10 ⟨orgFolders, none⟩ ⟨[projectInOrg], none⟩ "" = some (.ok []) ∧
      projectInOrg.State ≠ Project_DELETE_REQUESTED ∧
      projectInOrg.Parent ∉ orgFolders.map Folder.Name :=
  ⟨rfl, by decide, by decide⟩

/-- C3 (amended): with the empty search root and both fetches succeeding, no
folder is pruned, and the output is, in fetch order, the names of exactly the
projects whose state is not DELETE_REQUESTED and whose parent is the name of a
fetched folder. -/
theorem empty_root_output (fuel : Nat) (fi : Iter Folder) (pi : Iter Project)
    (hfi : fi.err = none) (hpi : pi.err = none) :
    pruneFolders fuel "" (fetchFolders "" fi.items).1 (fetchFolders "" fi.items).2 =
        some (fetchFolders "" fi.items).1 ∧
      getDescendantProjects fuel fi pi "" =
        some (.ok ((pi.items.filter (fun p =>
          decide (p.State ≠ Project_DELETE_REQUESTED ∧
            p.Parent ∈ fi.items.map Folder.Name))).map Project.Name)) := by
  have hprune : pruneFolders fuel "" (fetchFolders "" fi.items).1
      (fetchFolders "" fi.items).2 = some (fetchFolders "" fi.items).1 := by
    simp [pruneFolders]
  refine ⟨hprune, ?_⟩
  rw [getDescendantProjects_ok fuel fi pi "" _ hfi hpi hprune]
  have h := foldl_projectStep (fetchFolders "" fi.items).1 pi.items []
  simp only [List.nil_append] at h
  unfold filterProjects
  rw [h]
  have hf : ∀ p : Project,
      decide (p.State ≠ Project_DELETE_REQUESTED ∧
        mapHas (fetchFolders "" fi.items).1 p.Parent = true) =
      decide (p.State ≠ Project_DELETE_REQUESTED ∧
        p.Parent ∈ fi.items.map Folder.Name) := by
    intro p
    simp only [mapHas_iff_mem_keys, fetchFolders_keys]
  simp only [hf]

/-- C3 (amended), at a concrete input: the project in folder `B` is returned, the
project under the organization is not. -/
theorem empty_root_output_example :
    getDescendantProjects 10 ⟨orgFolders, none⟩ ⟨[projectInB, projectInOrg], none⟩ "" =
      some (.ok ["projects/p1"]) :=
  ((empty_root_output 10 ⟨orgFolders, none⟩ ⟨[projectInB, projectInOrg], none⟩
    rfl rfl).2).trans rfl

/-- C4 (as stated, refuted): of two folders named `team`, the first in fetch
order is `folders/1`, and the root selected is `folders/2`. -/
theorem root_is_not_first_match :
    (twinFolders.find? (fun f => decide (f.DisplayName = "team"))).map Folder.Name =
        some "folders/1" ∧
      (fetchFolders "team" twinFolders).2 = "folders/2" ∧
      (fetchFolders "team" twinFolders).2 ≠ "folders/1" := by
  decide

/-- C4 (amended): the root selected is the name of the last folder in fetch order
whose display name equals the search-root string (last match wins). -/
theorem root_is_last_match (folder : String) (pre post : List Folder) (f : Folder)
    (hf : f.DisplayName = folder) (hpost : ∀ g ∈ post, g.DisplayName ≠ folder) :
    (fetchFolders folder (pre ++ f :: post)).2 = f.Name := by
  rw [fetchFolders_append, List.foldl_cons, foldl_fetchStep_root_of_no_match _ _ _ hpost]
  simp [fetchStep, hf]

/-- C4 (amended), at two folders named `team`: the second is the root. -/
theorem root_is_last_match_twins :
    (fetchFolders "team"
      ([⟨"folders/1", "team", "organizations/9"⟩] ++
        (⟨"folders/2", "team", "organizations/9"⟩ : Folder) :: [])).2 = "folders/2" :=
  root_is_last_match "team" [⟨"folders/1", "team", "organizations/9"⟩] []
    ⟨"folders/2", "team", "organizations/9"⟩ rfl (by simp)

/-- C8: if the parent chain of every folder reaches the root or an identity equal
to its own parent (`cur == folders[cur].Parent`) in finitely many hops, the
pruning stage returns, with the same result for every sufficient fuel; a walk
whose chain reaches such a point after `n` hops stops within `n + 1`
iterations; and a walk that stops does so at the first point of its chain that
is the root (folder kept) or equals its own parent (folder marked). -/
theorem pruning_terminates (folders : FolderMap) (root folder : String)
    (hreach : ∀ f, f ∈ mapKeys folders → ∃ n, chain folders n f = root ∨
      chain folders n f = parentOf folders (chain folders n f)) :
    (∃ N pruned, ∀ fuel, N ≤ fuel → pruneFolders fuel folder folders root = some pruned) ∧
    (∀ f n, (chain folders n f = root ∨
        chain folders n f = parentOf folders (chain folders n f)) →
      ∀ fuel, n < fuel → ∃ b, walk folders root fuel f = some b) ∧
    (∀ fuel f b, walk folders root fuel f = some b →
      ∃ j, j < fuel ∧
        (∀ i, i < j → chain folders i f ≠ root ∧
          chain folders i f ≠ parentOf folders (chain folders i f)) ∧
        ((b = false ∧ chain folders j f = root) ∨
          (b = true ∧ chain folders j f ≠ root ∧
            chain folders j f = parentOf folders (chain folders j f)))) := by
  refine ⟨?_, ?_, ?_⟩
  · by_cases hne : folder = ""
    · exact ⟨0, folders, fun fuel _ => by simp [pruneFolders, hne]⟩
    · obtain ⟨N, hN⟩ := walks_bounded folders root (mapKeys folders) hreach
      obtain ⟨prune, hprune⟩ :=
        pruneLoop_total folders root N (mapKeys folders) [] (fun k hk _ => hN k hk)
      refine ⟨N, deleteAll folders prune, ?_⟩
      intro fuel hle
      unfold pruneFolders
      rw [if_pos hne, pruneLoop_mono folders root N fuel _ _ _ hle hprune]
  · intro f n h fuel hfuel
    exact walk_stops_of_reach folders root n f h fuel hfuel
  · intro fuel f b h
    exact walk_stop_condition folders root fuel f b h

/-- C8, at the scenario `{A(parent=A), B(parent=A), C(parent=B)}` with root `B`:
every chain reaches `B` or the self-parent `A`, and pruning returns. -/
theorem pruning_terminates_scenario :
    ∃ N pruned, ∀ fuel, N ≤ fuel →
      pruneFolders fuel "b" (fetchFolders "b" scenarioFolders).1 "folders/B" =
        some pruned :=
  (pruning_terminates (fetchFolders "b" scenarioFolders).1 "folders/B" "b" (by
    intro f hf
    have hkeys : mapKeys (fetchFolders "b" scenarioFolders).1 =
        ["folders/A", "folders/B", "folders/C"] := by decide
    rw [hkeys] at hf
    simp only [List.mem_cons, List.mem_singleton, List.not_mem_nil, or_false] at hf
    rcases hf with rfl | rfl | rfl
    · exact ⟨0, Or.inr (by decide)⟩
    · exact ⟨0, Or.inl rfl⟩
    · exact ⟨1, Or.inl (by decide)⟩)).1

/-- C9 (the code at the failing input): the search root `nosuch` matches no
folder, `root` stays `""`, the walk from `folders/B` leaves the set at the
organization, reads `""` as its parent and takes it for the root; both folders
are kept and, for every fuel from 4 on, the project in `folders/B` is
returned. -/
theorem unmatched_root_returns_project :
    (fetchFolders "nosuch" orgFolders).2 = "" ∧
      walk (fetchFolders "nosuch" orgFolders).1 "" 4 "folders/B" = some false ∧
      ∀ fuel, getDescendantProjects (fuel + 4) ⟨orgFolders, none⟩ ⟨[projectInB], none⟩
        "nosuch" = some (.ok ["projects/p1"]) := by
  refine ⟨by decide, by decide, ?_⟩
  intro fuel
  have h4 : pruneFolders 4 "nosuch" (fetchFolders "nosuch" orgFolders).1
      (fetchFolders "nosuch" orgFolders).2 = some (fetchFolders "nosuch" orgFolders).1 := by
    decide
  have hne : ("nosuch" : String) ≠ "" := by decide
  obtain ⟨prune, hl, hd⟩ := pruneFolders_of_root_given 4 _ _ _ _ hne h4
  have hp : pruneFolders (fuel + 4) "nosuch" (fetchFolders "nosuch" orgFolders).1
      (fetchFolders "nosuch" orgFolders).2 = some (fetchFolders "nosuch" orgFolders).1 := by
    unfold pruneFolders
    rw [if_pos hne, pruneLoop_mono _ _ 4 (fuel + 4) _ _ _ (by omega) hl]
    exact congrArg some hd.symm
  rw [getDescendantProjects_ok (fuel + 4) ⟨orgFolders, none⟩ ⟨[projectInB], none⟩ "nosuch" _
    rfl rfl hp]
  rfl

/-! ## Lemmas on the config synthesis -/

theorem synthStep_ok (tplExecute : clusterInfo → Except String String) (cfg : kubeConfig)
    (c : clusterInfo) (u : userConfigData) (us : List userConfigData)
    (hu : cfg.Users = u :: us) (name : String) (hc : tplExecute c = .ok name) :
    synthStep tplExecute cfg c =
      .ok
        { Clusters := cfg.Clusters ++ [clusterEntryOf c]
          Contexts := cfg.Contexts ++ [contextEntryOf tplExecute u.Name c]
          Users := cfg.Users } := by
  simp only [synthStep, hc, hu, clusterEntryOf, contextEntryOf, clusterName, renderedName]

theorem synthLoop_ok (tplExecute : clusterInfo → Except String String)
    (cs : List clusterInfo) (cfg : kubeConfig) (u : userConfigData)
    (us : List userConfigData) (hu : cfg.Users = u :: us)
    (h : ∀ c, c ∈ cs → ∃ name, tplExecute c = .ok name) :
    synthLoop tplExecute cfg cs =
      .ok
        { Clusters := cfg.Clusters ++ cs.map clusterEntryOf
          Contexts := cfg.Contexts ++ cs.map (contextEntryOf tplExecute u.Name)
          Users := cfg.Users } := by
  induction cs generalizing cfg with
  | nil => simp [synthLoop]
  | cons c rest ih =>
    obtain ⟨name, hname⟩ := h c (List.mem_cons_self _ _)
    unfold synthLoop
    rw [synthStep_ok tplExecute cfg c u us hu name hname]
    have hrest := ih
      { Clusters := cfg.Clusters ++ [clusterEntryOf c]
        Contexts := cfg.Contexts ++ [contextEntryOf tplExecute u.Name c]
        Users := cfg.Users } hu (fun d hd => h d (List.mem_cons_of_mem _ hd))
    simp only
    rw [hrest]
    simp

theorem buildConfig_ok (tplExecute : clusterInfo → Except String String)
    (cs : List clusterInfo) (h : ∀ c, c ∈ cs → ∃ name, tplExecute c = .ok name) :
    buildConfig tplExecute cs =
      .ok
        { Clusters := cs.map clusterEntryOf
          Contexts := cs.map (contextEntryOf tplExecute "google-auth")
          Users := initialConfig.Users } := by
  unfold buildConfig
  rw [synthLoop_ok tplExecute cs initialConfig _ [] rfl h]
  simp [initialConfig]

/-! ## Lemmas on splitting -/

theorem splitChars_append_sep (sep : Char) (xs rest : List Char) (h : sep ∉ xs) :
    splitChars sep (xs ++ sep :: rest) = xs :: splitChars sep rest := by
  induction xs with
  | nil => simp [splitChars]
  | cons c xs ih =>
    have hc : c ≠ sep := fun hcs => h (by simp [hcs])
    have hxs : sep ∉ xs := fun hmem => h (List.mem_cons_of_mem _ hmem)
    rw [List.cons_append, splitChars, if_neg hc, ih hxs]

theorem Split_selfLink (host P rest : String) (hhost : '/' ∉ host.data)
    (hP : '/' ∉ P.data) :
    (Split ("https://" ++ host ++ "/v1/projects/" ++ P ++ "/" ++ rest))[5]? = some P := by
  have hdata : ("https://" ++ host ++ "/v1/projects/" ++ P ++ "/" ++ rest).data =
      ['h', 't', 't', 'p', 's', ':'] ++ '/' :: ([] ++ '/' :: (host.data ++ '/' ::
        (['v', '1'] ++ '/' :: (['p', 'r', 'o', 'j', 'e', 'c', 't', 's'] ++ '/' ::
          (P.data ++ '/' :: rest.data))))) := by
    simp [String.data_append]
  unfold Split
  rw [hdata, splitChars_append_sep _ _ _ (by decide), splitChars_append_sep _ _ _ (by simp),
    splitChars_append_sep _ _ _ hhost, splitChars_append_sep _ _ _ (by decide),
    splitChars_append_sep _ _ _ (by decide), splitChars_append_sep _ _ _ hP]
  simp

/-! ## Claims on the config synthesis and the cluster enumeration -/

/-- C5: when the template renders every ClusterInfo, the document is built and has
exactly one user entry, named `google-auth`, and one cluster entry and one
context entry per ClusterInfo, in the order of the records; with no cluster the
clusters and contexts are empty and the single user entry is still there. -/
theorem config_entry_counts (tplExecute : clusterInfo → Except String String)
    (clusters : List clusterInfo)
    (h : ∀ c, c ∈ clusters → ∃ name, tplExecute c = .ok name) :
    ∃ cfg, buildConfig tplExecute clusters = .ok cfg ∧
      cfg.Users.length = 1 ∧
      cfg.Users.map userConfigData.Name = ["google-auth"] ∧
      cfg.Clusters.length = clusters.length ∧
      cfg.Contexts.length = clusters.length ∧
      cfg.Clusters.map clusterConfigData.Name =
        clusters.map (fun c => c.ProjectId ++ "/" ++ c.Location ++ "/" ++ c.Name) ∧
      cfg.Contexts.map (fun x => x.Context.Cluster) =
        clusters.map (fun c => c.ProjectId ++ "/" ++ c.Location ++ "/" ++ c.Name) ∧
      cfg.Contexts.map (fun x => Except.ok x.Name) = clusters.map tplExecute ∧
      (clusters = [] → cfg.Clusters = [] ∧ cfg.Contexts = []) := by
  refine ⟨_, buildConfig_ok tplExecute clusters h, ?_, ?_, ?_, ?_, ?_, ?_, ?_, ?_⟩
  · simp [initialConfig]
  · simp [initialConfig]
  · simp
  · simp
  · simp [clusterEntryOf, clusterName, Function.comp_def]
  · simp [contextEntryOf, clusterName, Function.comp_def]
  · simp only [List.map_map]
    apply List.map_congr_left
    intro c hc
    obtain ⟨name, hname⟩ := h c hc
    simp [contextEntryOf, renderedName, hname]
  · rintro rfl
    simp

/-- C5, with no cluster and with one cluster under the default template. -/
theorem config_entry_counts_example :
    (∃ cfg, buildConfig defaultTemplate [] = .ok cfg ∧ cfg.Users.length = 1 ∧
        cfg.Clusters = [] ∧ cfg.Contexts = []) ∧
      ∃ cfg, buildConfig defaultTemplate [sampleInfo] = .ok cfg ∧ cfg.Users.length = 1 ∧
        cfg.Clusters.length = 1 ∧ cfg.Contexts.length = 1 := by
  constructor
  · obtain ⟨cfg, hb, hu, _, _, _, _, _, _, hnil⟩ :=
      config_entry_counts defaultTemplate [] (fun c hc => absurd hc (List.not_mem_nil c))
    exact ⟨cfg, hb, hu, (hnil rfl).1, (hnil rfl).2⟩
  · obtain ⟨cfg, hb, hu, _, hc, hx, _⟩ :=
      config_entry_counts defaultTemplate [sampleInfo] (fun _ _ => ⟨_, rfl⟩)
    exact ⟨cfg, hb, hu, hc, hx⟩

/-- C6: when the template renders every ClusterInfo, the cluster entry and the
context entry built for the `i`-th ClusterInfo `c` carry the same linking
string, equal to `c.ProjectId/c.Location/c.Name`, and the context entry's user
is the name of the single user entry. -/
theorem linking_identity (tplExecute : clusterInfo → Except String String)
    (clusters : List clusterInfo)
    (h : ∀ c, c ∈ clusters → ∃ name, tplExecute c = .ok name)
    (i : Nat) (c : clusterInfo) (hc : clusters[i]? = some c) :
    ∃ cfg ce cx, buildConfig tplExecute clusters = .ok cfg ∧
      cfg.Clusters[i]? = some ce ∧ cfg.Contexts[i]? = some cx ∧
      ce.Name = c.ProjectId ++ "/" ++ c.Location ++ "/" ++ c.Name ∧
      cx.Context.Cluster = ce.Name ∧
      cfg.Users.map userConfigData.Name = [cx.Context.User] := by
  refine ⟨_, clusterEntryOf c, contextEntryOf tplExecute "google-auth" c,
    buildConfig_ok tplExecute clusters h, ?_, ?_, rfl, rfl, ?_⟩
  · simp [List.getElem?_map, hc]
  · simp [List.getElem?_map, hc]
  · simp [initialConfig, contextEntryOf]

/-- C6, for the cluster `proj1/europe-west1/west-cluster`. -/
theorem linking_identity_example :
    ∃ cfg ce cx, buildConfig defaultTemplate [sampleInfo] = .ok cfg ∧
      cfg.Clusters[0]? = some ce ∧ cfg.Contexts[0]? = some cx ∧
      ce.Name = "proj1/europe-west1/west-cluster" ∧
      cx.Context.Cluster = ce.Name ∧
      cfg.Users.map userConfigData.Name = [cx.Context.User] :=
  linking_identity defaultTemplate [sampleInfo] (fun _ _ => ⟨_, rfl⟩) 0 sampleInfo rfl

/-- C7: when the template renders every ClusterInfo, the cluster entry built for
the `i`-th ClusterInfo `c` has the server `"https://"` followed by `c.Endpoint`
and the certificate-authority data `c.CAData`. -/
theorem endpoint_rendering (tplExecute : clusterInfo → Except String String)
    (clusters : List clusterInfo)
    (h : ∀ c, c ∈ clusters → ∃ name, tplExecute c = .ok name)
    (i : Nat) (c : clusterInfo) (hc : clusters[i]? = some c) :
    ∃ cfg ce, buildConfig tplExecute clusters = .ok cfg ∧
      cfg.Clusters[i]? = some ce ∧
      ce.Cluster.Endpoint = "https://" ++ c.Endpoint ∧
      ce.Cluster.CAData = c.CAData := by
  refine ⟨_, clusterEntryOf c, buildConfig_ok tplExecute clusters h, ?_, rfl, rfl⟩
  simp [List.getElem?_map, hc]

/-- C7, for the endpoint host `10.0.0.1`: the server is `https://10.0.0.1`. -/
theorem endpoint_rendering_example :
    ∃ cfg ce, buildConfig defaultTemplate [sampleInfo] = .ok cfg ∧
      cfg.Clusters[0]? = some ce ∧
      ce.Cluster.Endpoint = "https://10.0.0.1" ∧
      ce.Cluster.CAData = "Q0FEQVRB" :=
  endpoint_rendering defaultTemplate [sampleInfo] (fun _ _ => ⟨_, rfl⟩) 0 sampleInfo rfl

/-- C10: for a cluster whose self link is
`https://<host>/v1/projects/<P>/locations/<L>/clusters/<N>` with no `/` in
`<host>` and `<P>` (and whose `MasterAuth` is present), the ClusterInfo has
ProjectId `P`, the sixth segment of the self link, and Location, Name, CA data
and Endpoint copied from the record, and `getGKEClusters` returns it for a
project whose list call yields this cluster; and a ClusterInfo is produced for a
cluster only if its self link has at least six `/`-separated segments. -/
theorem project_from_self_link (c : Cluster) (host P L N : String) (ma : MasterAuth)
    (hhost : '/' ∉ host.data) (hP : '/' ∉ P.data)
    (hlink : c.SelfLink =
      "https://" ++ host ++ "/v1/projects/" ++ P ++ "/locations/" ++ L ++ "/clusters/" ++ N)
    (hma : c.MasterAuth = some ma) :
    (Split c.SelfLink)[5]? = some P ∧
      clusterInfoOf c =
        some
          { ProjectId := P
            Location := c.Location
            Name := c.Name
            CAData := ma.ClusterCaCertificate
            Endpoint := c.Endpoint } ∧
      (∀ (ListClusters : String → Except String (List Cluster)) (p : String),
        ListClusters (p ++ "/locations/-") = .ok [c] →
        getGKEClusters ListClusters [p] =
          some (.ok
            [{ ProjectId := P
               Location := c.Location
               Name := c.Name
               CAData := ma.ClusterCaCertificate
               Endpoint := c.Endpoint }])) ∧
      ∀ c' : Cluster, clusterInfoOf c' ≠ none ↔
        6 ≤ (Split c'.SelfLink).length ∧ c'.MasterAuth ≠ none := by
  have hsplit : (Split c.SelfLink)[5]? = some P := by
    have h := Split_selfLink host P ("locations/" ++ L ++ "/clusters/" ++ N) hhost hP
    rw [hlink]
    have heq : "https://" ++ host ++ "/v1/projects/" ++ P ++ "/locations/" ++ L ++
        "/clusters/" ++ N =
        "https://" ++ host ++ "/v1/projects/" ++ P ++ "/" ++
          ("locations/" ++ L ++ "/clusters/" ++ N) := by
      apply String.ext
      simp [String.data_append]
    rw [heq]
    exact h
  have hinfo : clusterInfoOf c =
      some
        { ProjectId := P
          Location := c.Location
          Name := c.Name
          CAData := ma.ClusterCaCertificate
          Endpoint := c.Endpoint } := by
    simp only [clusterInfoOf, hsplit, hma]
  refine ⟨hsplit, hinfo, ?_, ?_⟩
  · intro ListClusters p hl
    simp [getGKEClusters, clustersLoop, appendClusters, hl, hinfo]
  · intro c'
    unfold clusterInfoOf
    cases hs : (Split c'.SelfLink)[5]? with
    | none =>
      have hlen : (Split c'.SelfLink).length ≤ 5 := List.getElem?_eq_none_iff.mp hs
      simp only [ne_eq, not_true_eq_false, false_iff, not_and]
      intro h6
      omega
    | some pid =>
      have hlen : 5 < (Split c'.SelfLink).length := by
        by_contra hcon
        rw [List.getElem?_eq_none (by omega)] at hs
        simp at hs
      cases hm : c'.MasterAuth with
      | none => simp
      | some ma' =>
        simp only [ne_eq, reduceCtorEq, not_false_eq_true, true_iff, and_true]
        omega

/-- C10, for the self link
`https://container.googleapis.com/v1/projects/proj1/locations/europe-west1/clusters/west-cluster`. -/
theorem project_from_self_link_example :
    (Split sampleCluster.SelfLink)[5]? = some "proj1" ∧
      clusterInfoOf sampleCluster = some sampleInfo :=
  ⟨(project_from_self_link sampleCluster "container.googleapis.com" "proj1" "europe-west1"
      "west-cluster" ⟨"Q0FEQVRB"⟩ (by decide) (by decide) (by decide) rfl).1,
    (project_from_self_link sampleCluster "container.googleapis.com" "proj1" "europe-west1"
      "west-cluster" ⟨"Q0FEQVRB"⟩ (by decide) (by decide) (by decide) rfl).2.1⟩

end GkeConfigHelper
